import Mathlib

/-!
Shallow embedding of `qtum-address-rust` (src/lib.rs): conversion between
Qtum base58check textual addresses and raw 20-byte hex addresses.

Bytes are modelled as `Nat` values below 256; byte sequences as `List Nat`;
Rust `Result<String, &str>` as `Except String String`; Rust `Option` as
Lean `Option`.  The external crates used by the source (`basex_rs` with the
BITCOIN alphabet, `bitcoin_hashes::sha256`, `hex`) are not part of this
repository's sources, so they are modelled from the spec: standard base-58
with the Bitcoin alphabet and leading-zero/'1' convention, FIPS 180-4
SHA-256, and standard hex encoding/decoding.
-/

/-! ## Little-endian radix digits (evaluable replacements for `Nat.digits`) -/

/-- Value of a little-endian digit list in base `b` (matches `Nat.ofDigits`). -/
def ofDigitsLE (b : Nat) : List Nat → Nat
  | [] => 0
  | d :: ds => d + b * ofDigitsLE b ds

/-- Little-endian digits of `n` in base `b`, with explicit fuel so that the
definition is structurally recursive and kernel-evaluable. -/
def toDigitsLE (b : Nat) : Nat → Nat → List Nat
  | 0, _ => []
  | fuel + 1, n => if n = 0 then [] else n % b :: toDigitsLE b fuel (n / b)

/-- Little-endian digits of `n` in base `b` (`n` itself is always enough fuel). -/
def natDigitsLE (b n : Nat) : List Nat :=
  toDigitsLE b n n

theorem ofDigitsLE_eq_ofDigits (b : Nat) (L : List Nat) :
    ofDigitsLE b L = Nat.ofDigits b L := by
  induction L with
  | nil => rfl
  | cons d ds ih => simp [ofDigitsLE, Nat.ofDigits_cons, ih]

theorem toDigitsLE_eq_digits (b : Nat) (hb : 1 < b) :
    ∀ (fuel n : Nat), n ≤ fuel → toDigitsLE b fuel n = Nat.digits b n
  | 0, n, hn => by
    interval_cases n
    simp [toDigitsLE]
  | fuel + 1, n, hn => by
    by_cases h0 : n = 0
    · simp [toDigitsLE, h0]
    · rw [toDigitsLE, if_neg h0, Nat.digits_def' hb (Nat.pos_of_ne_zero h0)]
      have hdiv : n / b ≤ fuel := by
        have h1 : n / b < n := Nat.div_lt_self (Nat.pos_of_ne_zero h0) hb
        omega
      rw [toDigitsLE_eq_digits b hb fuel (n / b) hdiv]

theorem natDigitsLE_eq_digits (b : Nat) (hb : 1 < b) (n : Nat) :
    natDigitsLE b n = Nat.digits b n :=
  toDigitsLE_eq_digits b hb n n (Nat.le_refl n)

/-! ## Hex encoding and decoding (models the `hex` crate) -/

/-- Lowercase hex digit for a value below 16. -/
def hexChar (n : Nat) : Char :=
  ("0123456789abcdef".data).getD n '0'

/-- Modelled from the spec: the `hex` crate's decoding of one hex digit,
accepting `0-9`, `a-f` and `A-F`. -/
def hexDigitVal (c : Char) : Option Nat :=
  if '0' ≤ c ∧ c ≤ '9' then some (c.toNat - 48)
  else if 'a' ≤ c ∧ c ≤ 'f' then some (c.toNat - 87)
  else if 'A' ≤ c ∧ c ≤ 'F' then some (c.toNat - 55)
  else none

/-- Decode a list of hex characters two at a time into bytes; fails on an
odd-length list or on a character that is not a hex digit. -/
def hexDecodeChars : List Char → Option (List Nat)
  | [] => some []
  | [_] => none
  | c1 :: c2 :: rest =>
    match hexDigitVal c1, hexDigitVal c2, hexDecodeChars rest with
    | some hi, some lo, some bs => some ((16 * hi + lo) :: bs)
    | _, _, _ => none

/-- Modelled from the spec: `hex::decode`. -/
def hexDecode (s : String) : Option (List Nat) :=
  hexDecodeChars s.data

/-- Two lowercase hex characters of one byte. -/
def hexEncodeChars : List Nat → List Char
  | [] => []
  | b :: bs => hexChar (b / 16 % 16) :: hexChar (b % 16) :: hexEncodeChars bs

/-- Modelled from the spec: `hex::encode`, producing lowercase hex. -/
def hexEncode (bs : List Nat) : String :=
  String.mk (hexEncodeChars bs)

/-! ## Base-58 with the Bitcoin alphabet (models the `basex_rs` crate) -/

/-- The 58-character Bitcoin alphabet used by `BaseX::new(BITCOIN)`. -/
def b58Alphabet : List Char :=
  "123456789ABCDEFGHJKLMNPQRSTUVWXYZabcdefghijkmnopqrstuvwxyz".data

/-- Index of a character in a character list. -/
def charIndex : List Char → Char → Option Nat
  | [], _ => none
  | a :: as, c => if a = c then some 0 else (charIndex as c).map (· + 1)

/-- Base-58 digit value of one character; `none` when the character is
outside the Bitcoin alphabet. -/
def b58Index (c : Char) : Option Nat :=
  charIndex b58Alphabet c

/-- Character of a base-58 digit below 58. -/
def b58Char (d : Nat) : Char :=
  b58Alphabet.getD d '1'

/-- Digit values of a character list; `none` when any character is outside
the alphabet. -/
def b58Digits : List Char → Option (List Nat)
  | [] => some []
  | c :: cs =>
    match b58Index c, b58Digits cs with
    | some d, some ds => some (d :: ds)
    | _, _ => none

/-- Number of leading zeros of a list of naturals. -/
def countLeadZeros : List Nat → Nat
  | [] => 0
  | d :: ds => if d = 0 then countLeadZeros ds + 1 else 0

/-- The list with its leading zeros removed. -/
def stripLeadZeros : List Nat → List Nat
  | [] => []
  | d :: ds => if d = 0 then stripLeadZeros ds else d :: ds

/-- Modelled from the spec: `BaseX::new(BITCOIN).decode` — reject characters
outside the alphabet, map leading '1' characters to leading zero bytes, and
convert the base-58 value to big-endian bytes. -/
def base58decode (s : String) : Option (List Nat) :=
  match b58Digits s.data with
  | none => none
  | some ds =>
    let n := ofDigitsLE 58 ds.reverse
    some (List.replicate (countLeadZeros ds) 0 ++ (natDigitsLE 256 n).reverse)

/-- Modelled from the spec: `BaseX::new(BITCOIN).encode` — map leading zero
bytes to '1' characters and convert the big-endian byte value to base-58
digits. -/
def base58encode (bs : List Nat) : String :=
  let n := ofDigitsLE 256 bs.reverse
  String.mk (List.replicate (countLeadZeros bs) '1' ++
    ((natDigitsLE 58 n).reverse.map b58Char))

/-! ## SHA-256 (models the `bitcoin_hashes::sha256` crate, FIPS 180-4) -/

/-- Truncation to a 32-bit word. -/
def w32 (x : Nat) : Nat := x % 4294967296

/-- Right rotation of a 32-bit word. -/
def rotr32 (n x : Nat) : Nat := w32 ((x >>> n) ||| (x <<< (32 - n)))

/-- SHA-256 small sigma 0. -/
def sSig0 (x : Nat) : Nat := (rotr32 7 x) ^^^ (rotr32 18 x) ^^^ (x >>> 3)

/-- SHA-256 small sigma 1. -/
def sSig1 (x : Nat) : Nat := (rotr32 17 x) ^^^ (rotr32 19 x) ^^^ (x >>> 10)

/-- SHA-256 big sigma 0. -/
def bSig0 (x : Nat) : Nat := (rotr32 2 x) ^^^ (rotr32 13 x) ^^^ (rotr32 22 x)

/-- SHA-256 big sigma 1. -/
def bSig1 (x : Nat) : Nat := (rotr32 6 x) ^^^ (rotr32 11 x) ^^^ (rotr32 25 x)

/-- SHA-256 choice function. -/
def shaCh (x y z : Nat) : Nat := (x &&& y) ^^^ ((x ^^^ 4294967295) &&& z)

/-- SHA-256 majority function. -/
def shaMaj (x y z : Nat) : Nat := (x &&& y) ^^^ (x &&& z) ^^^ (y &&& z)

/-- The 64 SHA-256 round constants. -/
def sha256K : List Nat :=
  [1116352408, 1899447441, 3049323471, 3921009573,
   961987163, 1508970993, 2453635748, 2870763221,
   3624381080, 310598401, 607225278, 1426881987,
   1925078388, 2162078206, 2614888103, 3248222580,
   3835390401, 4022224774, 264347078, 604807628,
   770255983, 1249150122, 1555081692, 1996064986,
   2554220882, 2821834349, 2952996808, 3210313671,
   3336571891, 3584528711, 113926993, 338241895,
   666307205, 773529912, 1294757372, 1396182291,
   1695183700, 1986661051, 2177026350, 2456956037,
   2730485921, 2820302411, 3259730800, 3345764771,
   3516065817, 3600352804, 4094571909, 275423344,
   430227734, 506948616, 659060556, 883997877,
   958139571, 1322822218, 1537002063, 1747873779,
   1955562222, 2024104815, 2227730452, 2361852424,
   2428436474, 2756734187, 3204031479, 3329325298]

/-- Big-endian 8-byte encoding of the bit length of a message of `L` bytes. -/
def lengthBytes (L : Nat) : List Nat :=
  [((8 * L) >>> 56) % 256, ((8 * L) >>> 48) % 256, ((8 * L) >>> 40) % 256,
   ((8 * L) >>> 32) % 256, ((8 * L) >>> 24) % 256, ((8 * L) >>> 16) % 256,
   ((8 * L) >>> 8) % 256, (8 * L) % 256]

/-- SHA-256 padding: append `0x80`, zeros to 56 mod 64, and the bit length. -/
def padMessage (msg : List Nat) : List Nat :=
  msg ++ 128 :: List.replicate ((119 - msg.length % 64) % 64) 0 ++
    lengthBytes msg.length

/-- Big-endian 32-bit words of a byte list (groups of four). -/
def wordsOfBytes : List Nat → List Nat
  | b0 :: b1 :: b2 :: b3 :: rest =>
    (b0 * 16777216 + b1 * 65536 + b2 * 256 + b3) :: wordsOfBytes rest
  | _ => []

/-- Extend the (reversed, newest-first) message schedule by `t` words. -/
def extendW : Nat → List Nat → List Nat
  | 0, w => w
  | t + 1, w =>
    extendW t
      (w32 (sSig1 (w.getD 1 0) + w.getD 6 0 + sSig0 (w.getD 14 0) + w.getD 15 0) :: w)

/-- The 64-word message schedule of one block's 16 words. -/
def messageSchedule (ws : List Nat) : List Nat :=
  (extendW 48 ws.reverse).reverse

/-- The eight SHA-256 working registers. -/
structure Sha256State where
  a : Nat
  b : Nat
  c : Nat
  d : Nat
  e : Nat
  f : Nat
  g : Nat
  h : Nat

/-- One SHA-256 compression round. -/
def shaRound (k w : Nat) (s : Sha256State) : Sha256State :=
  let t1 := w32 (s.h + bSig1 s.e + shaCh s.e s.f s.g + k + w)
  let t2 := w32 (bSig0 s.a + shaMaj s.a s.b s.c)
  ⟨w32 (t1 + t2), s.a, s.b, s.c, w32 (s.d + t1), s.e, s.f, s.g⟩

/-- Run the compression rounds over paired constants and schedule words. -/
def shaRounds : List (Nat × Nat) → Sha256State → Sha256State
  | [], s => s
  | (k, w) :: kws, s => shaRounds kws (shaRound k w s)

/-- Compress one 64-byte block into the running state. -/
def compressBlock (s : Sha256State) (block : List Nat) : Sha256State :=
  let ws := messageSchedule (wordsOfBytes block)
  let t := shaRounds (sha256K.zip ws) s
  ⟨w32 (s.a + t.a), w32 (s.b + t.b), w32 (s.c + t.c), w32 (s.d + t.d),
   w32 (s.e + t.e), w32 (s.f + t.f), w32 (s.g + t.g), w32 (s.h + t.h)⟩

/-- Process `n` 64-byte blocks of the padded message. -/
def processBlocks (s : Sha256State) : Nat → List Nat → Sha256State
  | 0, _ => s
  | n + 1, msg => processBlocks (compressBlock s (msg.take 64)) n (msg.drop 64)

/-- The SHA-256 initial hash value. -/
def sha256Init : Sha256State :=
  ⟨1779033703, 3144134277, 1013904242, 2773480762,
   1359893119, 2600822924, 528734635, 1541459225⟩

/-- Big-endian bytes of one 32-bit word. -/
def wordBytes (w : Nat) : List Nat :=
  [(w >>> 24) % 256, (w >>> 16) % 256, (w >>> 8) % 256, w % 256]

/-- Modelled from the spec: the standard SHA-256 digest (FIPS 180-4) of a
byte sequence, as computed by `bitcoin_hashes::sha256::Hash::hash`. -/
def sha256 (msg : List Nat) : List Nat :=
  let p := padMessage msg
  let s := processBlocks sha256Init (p.length / 64) p
  wordBytes s.a ++ wordBytes s.b ++ wordBytes s.c ++ wordBytes s.d ++
    wordBytes s.e ++ wordBytes s.f ++ wordBytes s.g ++ wordBytes s.h

/-! ## The library itself (src/lib.rs) -/

/-- Enum of Qtum networks (`QtumNetwork`). -/
inductive QtumNetwork where
  | Mainnet
  | Testnet
deriving DecidableEq

/-- Getting prefix byte from network type (`QtumNetwork::to_prefix_byte`). -/
def QtumNetwork.to_prefix_byte : QtumNetwork → Nat
  | .Mainnet => 0x3a
  | .Testnet => 0x78

/-- The `From<u8> for QtumNetwork` conversion; the source panics on any
byte other than `0x3a` and `0x78`, modelled here as `none`. -/
def QtumNetwork.fromByte (item : Nat) : Option QtumNetwork :=
  if item = 0x3a then some .Mainnet
  else if item = 0x78 then some .Testnet
  else none

/-- Structure for conversion of Qtum addresses (`QtumAddress`); the source
field `prefix` is named `prefix_byte` here because `prefix` is a Lean
keyword. -/
structure QtumAddress where
  prefix_byte : Nat

/-- Initialization of the address conversion structure (`QtumAddress::new`). -/
def QtumAddress.new (network : QtumNetwork) : QtumAddress :=
  ⟨network.to_prefix_byte⟩

/-- Rust slice indexing `xs.get(i..j)`: a subslice exactly when
`i ≤ j ≤ xs.len()`. -/
def sliceGet (xs : List Nat) (i j : Nat) : Option (List Nat) :=
  if i ≤ j ∧ j ≤ xs.length then some ((xs.drop i).take (j - i)) else none

/-- SHA256 hash function (`QtumAddress::hash`): the digest is rendered to a
hex string (`Display` of `bitcoin_hashes::sha256::Hash` prints the digest
bytes forward in lowercase hex) and decoded back to bytes; the `unwrap` of
the always-successful decode is modelled with default `[]`. -/
def QtumAddress.hash (_ : QtumAddress) (byte : List Nat) : List Nat :=
  (hexDecode (hexEncode (sha256 byte))).getD []

/-- Converts a base58 pubkeyhash address to a hex address for use in smart
contracts (`QtumAddress::gethexaddress`). -/
def QtumAddress.gethexaddress (_ : QtumAddress) (address : String) :
    Except String String :=
  if address = "" then .error "Invalid address"
  else
    match base58decode address with
    | none => .error "Invalid address"
    | some decode_bytes =>
      match sliceGet decode_bytes 1 21 with
      | some new_bytes => .ok (hexEncode new_bytes)
      | none => .error "Invalid address"

/-- Converts a raw hex address to a base58 pubkeyhash address
(`QtumAddress::fromhexaddress`). -/
def QtumAddress.fromhexaddress (a : QtumAddress) (address : String) :
    Except String String :=
  if address = "" ∨ address.length ≠ 40 then .error "Invalid address"
  else
    match hexDecode address with
    | none => .error "Invalid address"
    | some bytes =>
      let address_bytes := a.prefix_byte :: bytes
      let checksum := a.hash (a.hash address_bytes)
      match sliceGet checksum 0 4 with
      | some h => .ok (base58encode (address_bytes ++ h))
      | none => .error "Invalid address"

/-! ## Lemmas about the hex codec -/

theorem hexDigitVal_hexChar : ∀ d, d < 16 → hexDigitVal (hexChar d) = some d := by
  decide

theorem hexDigitVal_lt {c : Char} {d : Nat} (h : hexDigitVal c = some d) :
    d < 16 := by
  unfold hexDigitVal at h
  split_ifs at h with h1 h2 h3
  · obtain ⟨ha, hb⟩ := h1
    have ha' : 48 ≤ c.toNat := ha
    have hb' : c.toNat ≤ 57 := hb
    simp only [Option.some.injEq] at h
    omega
  · obtain ⟨ha, hb⟩ := h2
    have ha' : 97 ≤ c.toNat := ha
    have hb' : c.toNat ≤ 102 := hb
    simp only [Option.some.injEq] at h
    omega
  · obtain ⟨ha, hb⟩ := h3
    have ha' : 65 ≤ c.toNat := ha
    have hb' : c.toNat ≤ 70 := hb
    simp only [Option.some.injEq] at h
    omega

theorem hexDecodeChars_lt :
    ∀ (cs : List Char) (bs : List Nat), hexDecodeChars cs = some bs →
      ∀ b ∈ bs, b < 256
  | [], bs, h => by
    simp only [hexDecodeChars, Option.some.injEq] at h
    simp [← h]
  | [c], bs, h => by
    simp [hexDecodeChars] at h
  | c1 :: c2 :: rest, bs, h => by
    rw [hexDecodeChars] at h
    rcases h1 : hexDigitVal c1 with _ | hi <;> rw [h1] at h
    · simp at h
    rcases h2 : hexDigitVal c2 with _ | lo <;> rw [h2] at h
    · simp at h
    rcases h3 : hexDecodeChars rest with _ | tl <;> rw [h3] at h
    · simp at h
    simp only [Option.some.injEq] at h
    subst h
    intro b hb
    rcases List.mem_cons.mp hb with rfl | hmem
    · have := hexDigitVal_lt h1
      have := hexDigitVal_lt h2
      omega
    · exact hexDecodeChars_lt rest tl h3 b hmem

theorem hexDecodeChars_hexEncodeChars (bs : List Nat) (hbs : ∀ b ∈ bs, b < 256) :
    hexDecodeChars (hexEncodeChars bs) = some bs := by
  induction bs with
  | nil => rfl
  | cons b tl ih =>
    have hb : b < 256 := hbs b (List.mem_cons_self b tl)
    have hhi : b / 16 % 16 = b / 16 := Nat.mod_eq_of_lt (by omega)
    rw [hexEncodeChars, hexDecodeChars,
      hexDigitVal_hexChar (b / 16 % 16) (by omega),
      hexDigitVal_hexChar (b % 16) (Nat.mod_lt _ (by omega)),
      ih (fun x hx => hbs x (List.mem_cons_of_mem b hx))]
    show some ((16 * (b / 16 % 16) + b % 16) :: tl) = some (b :: tl)
    rw [hhi]
    rw [Nat.div_add_mod]

theorem hexEncodeChars_length (bs : List Nat) :
    (hexEncodeChars bs).length = 2 * bs.length := by
  induction bs with
  | nil => rfl
  | cons b tl ih => simp [hexEncodeChars, ih]; omega

theorem hexChar_mem (d : Nat) : hexChar d ∈ "0123456789abcdef".data := by
  rcases Nat.lt_or_ge d 16 with h | h
  · interval_cases d <;> decide
  · unfold hexChar
    rw [List.getD_eq_default]
    · decide
    · simpa using h

theorem hexEncodeChars_mem (bs : List Nat) :
    ∀ c ∈ hexEncodeChars bs, c ∈ "0123456789abcdef".data := by
  induction bs with
  | nil => simp [hexEncodeChars]
  | cons b tl ih =>
    intro c hc
    rcases List.mem_cons.mp hc with rfl | hc'
    · exact hexChar_mem _
    rcases List.mem_cons.mp hc' with rfl | hc''
    · exact hexChar_mem _
    · exact ih c hc''

theorem hexDigitVal_lower :
    ∀ c ∈ "0123456789abcdef".data, (hexDigitVal c).map hexChar = some c := by
  decide

theorem hexDecodeChars_of_lower :
    ∀ (cs : List Char), (∀ c ∈ cs, c ∈ "0123456789abcdef".data) →
      cs.length % 2 = 0 →
      ∃ bs, hexDecodeChars cs = some bs ∧ hexEncodeChars bs = cs ∧
        cs.length = 2 * bs.length
  | [], _, _ => ⟨[], rfl, rfl, rfl⟩
  | [c], hmem, hlen => by simp at hlen
  | c1 :: c2 :: rest, hmem, hlen => by
    obtain ⟨bs, hdec, henc, hl⟩ :=
      hexDecodeChars_of_lower rest
        (fun c hc => hmem c (List.mem_cons_of_mem _ (List.mem_cons_of_mem _ hc)))
        (by simp only [List.length_cons] at hlen; omega)
    have h1 := hexDigitVal_lower c1 (hmem c1 (by simp))
    have h2 := hexDigitVal_lower c2 (hmem c2 (by simp))
    rcases hv1 : hexDigitVal c1 with _ | d1 <;> rw [hv1] at h1
    · simp at h1
    rcases hv2 : hexDigitVal c2 with _ | d2 <;> rw [hv2] at h2
    · simp at h2
    simp only [Option.map_some', Option.some.injEq] at h1 h2
    refine ⟨(16 * d1 + d2) :: bs, ?_, ?_, ?_⟩
    · rw [hexDecodeChars, hv1, hv2, hdec]
    · have hd1 : d1 < 16 := hexDigitVal_lt hv1
      have hd2 : d2 < 16 := hexDigitVal_lt hv2
      rw [hexEncodeChars]
      have e1 : (16 * d1 + d2) / 16 % 16 = d1 := by omega
      have e2 : (16 * d1 + d2) % 16 = d2 := by omega
      rw [e1, e2, h1, h2, henc]
    · simp only [List.length_cons, hl]
      omega

/-! ## Lemmas about the base-58 codec -/

theorem charIndex_lt :
    ∀ (l : List Char) (c : Char) (d : Nat), charIndex l c = some d →
      d < l.length
  | [], c, d, h => by simp [charIndex] at h
  | a :: as, c, d, h => by
    rw [charIndex] at h
    split_ifs at h with ha
    · simp only [Option.some.injEq] at h
      simp [← h]
    · rcases he : charIndex as c with _ | e <;> rw [he] at h
      · simp at h
      · simp only [Option.map_some', Option.some.injEq] at h
        have := charIndex_lt as c e he
        simp only [List.length_cons]
        omega

theorem b58Index_lt {c : Char} {d : Nat} (h : b58Index c = some d) : d < 58 :=
  charIndex_lt b58Alphabet c d h

theorem b58Index_b58Char : ∀ d, d < 58 → b58Index (b58Char d) = some d := by
  decide

theorem b58Digits_map_b58Char (ds : List Nat) (hds : ∀ d ∈ ds, d < 58) :
    b58Digits (ds.map b58Char) = some ds := by
  induction ds with
  | nil => rfl
  | cons d tl ih =>
    rw [List.map_cons, b58Digits,
      b58Index_b58Char d (hds d (List.mem_cons_self d tl)),
      ih (fun x hx => hds x (List.mem_cons_of_mem d hx))]

theorem b58Digits_replicate_one (z : Nat) (cs : List Char) :
    b58Digits (List.replicate z '1' ++ cs) =
      (b58Digits cs).map (List.replicate z 0 ++ ·) := by
  induction z with
  | zero =>
    simp only [List.replicate_zero, List.nil_append]
    cases b58Digits cs <;> simp
  | succ z ih =>
    rw [List.replicate_succ, List.cons_append, b58Digits]
    have h1 : b58Index '1' = some 0 := by decide
    rw [h1, ih]
    cases b58Digits cs <;> simp [List.replicate_succ]

theorem b58Digits_eq_none_iff :
    ∀ (cs : List Char), b58Digits cs = none ↔ ∃ c ∈ cs, b58Index c = none
  | [] => by simp [b58Digits]
  | c :: cs => by
    rw [b58Digits]
    rcases hc : b58Index c with _ | d
    · simp [hc]
    · rcases hcs : b58Digits cs with _ | ds
      · simp only [true_iff]
        have := (b58Digits_eq_none_iff cs).mp hcs
        obtain ⟨x, hx, hxn⟩ := this
        exact ⟨x, List.mem_cons_of_mem c hx, hxn⟩
      · simp only [List.mem_cons]
        constructor
        · intro h
          simp at h
        · rintro ⟨x, hx | hx, hxn⟩
          · subst hx
            rw [hc] at hxn
            simp at hxn
          · have : b58Digits cs = none := (b58Digits_eq_none_iff cs).mpr ⟨x, hx, hxn⟩
            rw [this] at hcs
            simp at hcs

theorem countLeadZeros_replicate_append (z : Nat) (l : List Nat) :
    countLeadZeros (List.replicate z 0 ++ l) = z + countLeadZeros l := by
  induction z with
  | zero => simp
  | succ z ih =>
    rw [List.replicate_succ, List.cons_append, countLeadZeros]
    simp [ih]
    omega

theorem replicate_countLeadZeros_append (l : List Nat) :
    List.replicate (countLeadZeros l) 0 ++ stripLeadZeros l = l := by
  induction l with
  | nil => rfl
  | cons d tl ih =>
    by_cases hd : d = 0
    · subst hd
      rw [countLeadZeros, stripLeadZeros, if_pos rfl, if_pos rfl,
        List.replicate_succ, List.cons_append, ih]
    · rw [countLeadZeros, stripLeadZeros, if_neg hd, if_neg hd,
        List.replicate_zero, List.nil_append]

theorem stripLeadZeros_head :
    ∀ (l : List Nat) (d : Nat) (ds : List Nat),
      stripLeadZeros l = d :: ds → d ≠ 0
  | [], d, ds, h => by simp [stripLeadZeros] at h
  | x :: tl, d, ds, h => by
    rw [stripLeadZeros] at h
    split_ifs at h with hx
    · exact stripLeadZeros_head tl d ds h
    · rw [List.cons.injEq] at h
      rw [← h.1]
      exact hx

theorem ofDigitsLE_replicate_zero (b z : Nat) :
    ofDigitsLE b (List.replicate z 0) = 0 := by
  induction z with
  | zero => rfl
  | succ z ih => rw [List.replicate_succ, ofDigitsLE, ih]; omega

theorem ofDigitsLE_append_zeros (b : Nat) (l : List Nat) (z : Nat) :
    ofDigitsLE b (l ++ List.replicate z 0) = ofDigitsLE b l := by
  induction l with
  | nil => rw [List.nil_append, ofDigitsLE_replicate_zero, ofDigitsLE]
  | cons d tl ih => rw [List.cons_append, ofDigitsLE, ih, ofDigitsLE]

theorem countLeadZeros_eq_zero (l : List Nat) (d : Nat)
    (hh : l.head? = some d) (hd : d ≠ 0) : countLeadZeros l = 0 := by
  cases l with
  | nil => simp at hh
  | cons x tl =>
    simp only [List.head?_cons, Option.some.injEq] at hh
    rw [countLeadZeros, if_neg]
    rw [hh]
    exact hd

theorem natDigitsLE_lt {b : Nat} (hb : 1 < b) (n : Nat) :
    ∀ d ∈ natDigitsLE b n, d < b := by
  rw [natDigitsLE_eq_digits b hb]
  intro d hd
  exact Nat.digits_lt_base hb hd

theorem ofDigitsLE_natDigitsLE {b : Nat} (hb : 1 < b) (n : Nat) :
    ofDigitsLE b (natDigitsLE b n) = n := by
  rw [natDigitsLE_eq_digits b hb, ofDigitsLE_eq_ofDigits]
  exact Nat.ofDigits_digits b n

theorem natDigitsLE_ofDigitsLE {b : Nat} (hb : 1 < b) (L : List Nat)
    (w1 : ∀ l ∈ L, l < b) (w2 : L.getLast? ≠ some 0) :
    natDigitsLE b (ofDigitsLE b L) = L := by
  rw [natDigitsLE_eq_digits b hb, ofDigitsLE_eq_ofDigits]
  refine Nat.digits_ofDigits b hb L w1 ?_
  intro h
  intro hc
  rw [List.getLast?_eq_getLast L h, hc] at w2
  exact w2 rfl

theorem countLeadZeros_reverse_natDigitsLE {b : Nat} (hb : 1 < b) (n : Nat) :
    countLeadZeros ((natDigitsLE b n).reverse) = 0 := by
  rw [natDigitsLE_eq_digits b hb]
  by_cases hn : n = 0
  · subst hn
    simp [Nat.digits_zero, countLeadZeros]
  · have hne : Nat.digits b n ≠ [] := Nat.digits_ne_nil_iff_ne_zero.mpr hn
    refine countLeadZeros_eq_zero _ ((Nat.digits b n).getLast hne) ?_ ?_
    · rw [List.head?_reverse]
      exact List.getLast?_eq_getLast _ hne
    · exact Nat.getLast_digit_ne_zero b hn

theorem base58encode_data (bs : List Nat) :
    (base58encode bs).data =
      List.replicate (countLeadZeros bs) '1' ++
        ((natDigitsLE 58 (ofDigitsLE 256 bs.reverse)).reverse.map b58Char) := rfl

theorem base58decode_base58encode (bs : List Nat) (hbs : ∀ x ∈ bs, x < 256) :
    base58decode (base58encode bs) = some bs := by
  have h256 : (1 : Nat) < 256 := by norm_num
  have h58 : (1 : Nat) < 58 := by norm_num
  set z := countLeadZeros bs with hz
  set r := stripLeadZeros bs with hr
  have hdecomp : List.replicate z 0 ++ r = bs := replicate_countLeadZeros_append bs
  set n := ofDigitsLE 256 bs.reverse with hn
  -- the value only depends on the stripped part
  have hrev : bs.reverse = r.reverse ++ List.replicate z 0 := by
    rw [← hdecomp, List.reverse_append, List.reverse_replicate]
  have hval : n = ofDigitsLE 256 r.reverse := by
    rw [hn, hrev, ofDigitsLE_append_zeros]
  -- digits of the base-58 rendering
  have hlt58 : ∀ d ∈ (natDigitsLE 58 n).reverse, d < 58 := by
    intro d hd
    exact natDigitsLE_lt h58 n d (List.mem_reverse.mp hd)
  rw [base58decode]
  have hdata := base58encode_data bs
  rw [hdata, b58Digits_replicate_one, b58Digits_map_b58Char _ hlt58]
  simp only [Option.map_some']
  -- the digit list seen by the decoder
  have hcount :
      countLeadZeros (List.replicate z 0 ++ (natDigitsLE 58 n).reverse) = z := by
    rw [countLeadZeros_replicate_append, countLeadZeros_reverse_natDigitsLE h58]
    omega
  have hvalue :
      ofDigitsLE 58 ((List.replicate z 0 ++ (natDigitsLE 58 n).reverse)).reverse = n := by
    rw [List.reverse_append, List.reverse_reverse, List.reverse_replicate,
      ofDigitsLE_append_zeros]
    exact ofDigitsLE_natDigitsLE h58 n
  rw [hcount, hvalue]
  -- the 256-digit rendering of the value is the stripped part
  have hback : natDigitsLE 256 n = r.reverse := by
    rw [hval]
    refine natDigitsLE_ofDigitsLE h256 r.reverse ?_ ?_
    · intro l hl
      have : l ∈ bs := by
        rw [← hdecomp]
        exact List.mem_append_right _ (List.mem_reverse.mp hl)
      exact hbs l this
    · rw [List.getLast?_reverse]
      cases hcase : r with
      | nil => simp
      | cons d ds =>
        have := stripLeadZeros_head bs d ds (by rw [← hr, hcase])
        simp only [List.head?_cons]
        intro hcon
        rw [Option.some.injEq] at hcon
        exact this hcon
  rw [hback, List.reverse_reverse, Option.some.injEq, hdecomp]

/-! ## Lemmas about SHA-256 and the hash helper -/

theorem sha256_length (msg : List Nat) : (sha256 msg).length = 32 := by
  simp [sha256, wordBytes]

theorem sha256_lt (msg : List Nat) : ∀ x ∈ sha256 msg, x < 256 := by
  intro x hx
  simp only [sha256, wordBytes, List.mem_append, List.mem_cons,
    List.not_mem_nil, or_false] at hx
  omega

theorem hash_eq_sha256 (a : QtumAddress) (bs : List Nat) :
    a.hash bs = sha256 bs := by
  rw [QtumAddress.hash, hexEncode, hexDecode]
  have hdat : (String.mk (hexEncodeChars (sha256 bs))).data =
      hexEncodeChars (sha256 bs) := rfl
  rw [hdat, hexDecodeChars_hexEncodeChars _ (sha256_lt bs), Option.getD_some]

/-! ## Further facts about the codecs used by the conversions -/

theorem hexDecodeChars_length :
    ∀ (cs : List Char) (bs : List Nat), hexDecodeChars cs = some bs →
      cs.length = 2 * bs.length
  | [], bs, h => by
    simp only [hexDecodeChars, Option.some.injEq] at h
    simp [← h]
  | [c], bs, h => by simp [hexDecodeChars] at h
  | c1 :: c2 :: rest, bs, h => by
    rw [hexDecodeChars] at h
    rcases h1 : hexDigitVal c1 with _ | hi <;> rw [h1] at h
    · simp at h
    rcases h2 : hexDigitVal c2 with _ | lo <;> rw [h2] at h
    · simp at h
    rcases h3 : hexDecodeChars rest with _ | tl <;> rw [h3] at h
    · simp at h
    simp only [Option.some.injEq] at h
    subst h
    have := hexDecodeChars_length rest tl h3
    simp only [List.length_cons, this]
    omega

theorem hexDigitVal_none_iff (c : Char) :
    hexDigitVal c = none ↔
      ¬(('0' ≤ c ∧ c ≤ '9') ∨ ('a' ≤ c ∧ c ≤ 'f') ∨ ('A' ≤ c ∧ c ≤ 'F')) := by
  rw [hexDigitVal]
  split_ifs with h1 h2 h3 <;> simp_all

theorem hexDecodeChars_none_iff :
    ∀ (cs : List Char), cs.length % 2 = 0 →
      (hexDecodeChars cs = none ↔ ∃ c ∈ cs, hexDigitVal c = none)
  | [] => by intro _; simp [hexDecodeChars]
  | [c] => by intro h; simp at h
  | c1 :: c2 :: rest => by
    intro hlen
    have hrest : rest.length % 2 = 0 := by
      simp only [List.length_cons] at hlen
      omega
    rw [hexDecodeChars]
    rcases h1 : hexDigitVal c1 with _ | d1
    · simp only [true_iff]
      exact ⟨c1, by simp, h1⟩
    rcases h2 : hexDigitVal c2 with _ | d2
    · simp only [true_iff]
      exact ⟨c2, by simp, h2⟩
    rcases h3 : hexDecodeChars rest with _ | tl
    · simp only [true_iff]
      obtain ⟨x, hx, hxn⟩ := (hexDecodeChars_none_iff rest hrest).mp h3
      exact ⟨x, by simp [hx], hxn⟩
    · simp only [List.mem_cons]
      constructor
      · intro h
        simp at h
      · rintro ⟨x, hx | hx | hx, hxn⟩
        · subst hx
          rw [h1] at hxn
          simp at hxn
        · subst hx
          rw [h2] at hxn
          simp at hxn
        · have : hexDecodeChars rest = none :=
            (hexDecodeChars_none_iff rest hrest).mpr ⟨x, hx, hxn⟩
          rw [h3] at this
          simp at this

theorem base58decode_empty : base58decode "" = some [] := rfl

theorem base58decode_eq_none_iff (s : String) :
    base58decode s = none ↔ ∃ c ∈ s.data, b58Index c = none := by
  rw [base58decode, ← b58Digits_eq_none_iff]
  rcases h : b58Digits s.data with _ | ds <;> simp

theorem base58decode_lt {s : String} {bs : List Nat}
    (h : base58decode s = some bs) : ∀ x ∈ bs, x < 256 := by
  rw [base58decode] at h
  rcases hd : b58Digits s.data with _ | ds <;> rw [hd] at h
  · simp at h
  simp only [Option.some.injEq] at h
  subst h
  intro x hx
  rcases List.mem_append.mp hx with hx | hx
  · rw [List.eq_of_mem_replicate hx]
    omega
  · have := natDigitsLE_lt (b := 256) (by norm_num) _ _ (List.mem_reverse.mp hx)
    exact this

/-! ## Success behaviour of the two conversions -/

theorem fromhexaddress_ok (a : QtumAddress) (H : String) (P : List Nat)
    (hlen : H.length = 40) (hdec : hexDecode H = some P) :
    a.fromhexaddress H =
      Except.ok (base58encode ((a.prefix_byte :: P) ++
        (sha256 (sha256 (a.prefix_byte :: P))).take 4)) := by
  have hne : ¬(H = "" ∨ H.length ≠ 40) := by
    push_neg
    refine ⟨?_, hlen⟩
    intro h
    subst h
    simp at hlen
  rw [QtumAddress.fromhexaddress, if_neg hne, hdec]
  simp only [hash_eq_sha256, sliceGet]
  rw [if_pos ⟨by omega, by rw [sha256_length]; omega⟩]
  simp [List.drop_zero]

theorem gethexaddress_ok (a : QtumAddress) (s : String) (bs : List Nat)
    (hdec : base58decode s = some bs) (hlen : 21 ≤ bs.length) :
    a.gethexaddress s = Except.ok (hexEncode ((bs.drop 1).take 20)) := by
  have hne : s ≠ "" := by
    intro h
    subst h
    rw [base58decode_empty] at hdec
    obtain rfl := (Option.some.inj hdec)
    simp at hlen
  rw [QtumAddress.gethexaddress, if_neg hne, hdec]
  simp only [sliceGet]
  rw [if_pos ⟨by omega, hlen⟩]

/-! ## The claims -/

/-- C2: on every valid 40-character hex input decoding to payload `P`,
`fromhexaddress` returns exactly the Bitcoin-alphabet base-58 encoding of
`prefix ‖ P ‖ c`, where `prefix` is the codec's configured network byte and
`c` is the first 4 bytes of `SHA256(SHA256(prefix ‖ P))`. -/
theorem fromhexaddress_base58check_structure (a : QtumAddress) (H : String)
    (P : List Nat) (hlen : H.length = 40) (hdec : hexDecode H = some P) :
    a.fromhexaddress H =
      Except.ok (base58encode ((a.prefix_byte :: P) ++
        (sha256 (sha256 (a.prefix_byte :: P))).take 4)) :=
  fromhexaddress_ok a H P hlen hdec

set_option maxRecDepth 100000 in
/-- C3: under the Testnet codec, `gethexaddress` maps the concrete textual
address to its hex form and `fromhexaddress` maps the hex form back. -/
theorem testnet_concrete_vectors :
    (QtumAddress.new QtumNetwork.Testnet).gethexaddress
        "qTTH1Yr2eKCuDLqfxUyBLCAjmomQ8pyrBt" =
      Except.ok "6c89a1a6ca2ae7c00b248bb2832d6f480f27da68" ∧
    (QtumAddress.new QtumNetwork.Testnet).fromhexaddress
        "6c89a1a6ca2ae7c00b248bb2832d6f480f27da68" =
      Except.ok "qTTH1Yr2eKCuDLqfxUyBLCAjmomQ8pyrBt" :=
  ⟨by rfl, by rfl⟩

/-- C8: the byte mapping of the network enumeration is a bijection between
the two networks and the bytes `0x3a`/`0x78`; the `From<u8>` conversion
inverts it on exactly those two bytes and is fatal (modelled as `none`) on
every other byte. -/
theorem network_prefix_bijection :
    QtumNetwork.Mainnet.to_prefix_byte = 0x3a ∧
    QtumNetwork.Testnet.to_prefix_byte = 0x78 ∧
    QtumNetwork.fromByte 0x3a = some QtumNetwork.Mainnet ∧
    QtumNetwork.fromByte 0x78 = some QtumNetwork.Testnet ∧
    (∀ n : QtumNetwork, QtumNetwork.fromByte n.to_prefix_byte = some n) ∧
    (∀ b : Nat, b ≠ 0x3a → b ≠ 0x78 → QtumNetwork.fromByte b = none) := by
  refine ⟨rfl, rfl, rfl, rfl, ?_, ?_⟩
  · intro n
    cases n <;> rfl
  · intro b h1 h2
    rw [QtumNetwork.fromByte, if_neg h1, if_neg h2]

/-- C9: the double-SHA256 helper always yields a 32-byte digest, so the
`checksum.get(0..4)` slice in `fromhexaddress` never fails, and once the
length check and the hex decode succeed the function always returns `Ok`. -/
theorem checksum_slice_never_fails (a : QtumAddress) :
    (∀ bs : List Nat, (a.hash (a.hash bs)).length = 32 ∧
      sliceGet (a.hash (a.hash bs)) 0 4 = some ((a.hash (a.hash bs)).take 4)) ∧
    (∀ (H : String) (P : List Nat), H.length = 40 → hexDecode H = some P →
      ∃ t, a.fromhexaddress H = Except.ok t) := by
  constructor
  · intro bs
    have hlen : (a.hash (a.hash bs)).length = 32 := by
      rw [hash_eq_sha256, hash_eq_sha256]
      exact sha256_length _
    refine ⟨hlen, ?_⟩
    simp only [sliceGet]
    rw [if_pos ⟨by omega, by rw [hlen]; omega⟩]
    simp [List.drop_zero]
  · intro H P h1 h2
    exact ⟨_, fromhexaddress_ok a H P h1 h2⟩

/-- C10: the outcome of `gethexaddress` does not depend on the codec's
configured prefix byte: a Mainnet codec and a Testnet codec agree on every
input. -/
theorem gethexaddress_network_independent (s : String) :
    (QtumAddress.new QtumNetwork.Mainnet).gethexaddress s =
      (QtumAddress.new QtumNetwork.Testnet).gethexaddress s := rfl

/-- C1: for every 40-character lowercase hexadecimal string `H` and any
codec prefix byte, `fromhexaddress H` succeeds with a textual address `T`,
and `gethexaddress T` succeeds and returns `H` again. -/
theorem hex_to_textual_to_hex_roundtrip (a : QtumAddress) (H : String)
    (ha : a.prefix_byte < 256) (hlen : H.length = 40)
    (hhex : ∀ c ∈ H.data, c ∈ "0123456789abcdef".data) :
    ∃ T, a.fromhexaddress H = Except.ok T ∧
      a.gethexaddress T = Except.ok H := by
  have hdlen : H.data.length = 40 := hlen
  obtain ⟨P, hdec, henc, hl⟩ :=
    hexDecodeChars_of_lower H.data hhex (by rw [hdlen])
  have hdecS : hexDecode H = some P := hdec
  have hPlen : P.length = 20 := by omega
  set buf := (a.prefix_byte :: P) ++
    (sha256 (sha256 (a.prefix_byte :: P))).take 4 with hbuf
  have hbufLt : ∀ x ∈ buf, x < 256 := by
    intro x hx
    rcases List.mem_append.mp hx with hx | hx
    · rcases List.mem_cons.mp hx with rfl | hx
      · exact ha
      · exact hexDecodeChars_lt H.data P hdec x hx
    · exact sha256_lt _ x (List.take_subset 4 _ hx)
  have hbufLen : 21 ≤ buf.length := by
    rw [hbuf]
    simp only [List.length_append, List.length_cons, hPlen]
    omega
  have hrt : base58decode (base58encode buf) = some buf :=
    base58decode_base58encode buf hbufLt
  refine ⟨base58encode buf, fromhexaddress_ok a H P hlen hdecS, ?_⟩
  rw [gethexaddress_ok a _ buf hrt hbufLen]
  have hdrop : buf.drop 1 = P ++ (sha256 (sha256 (a.prefix_byte :: P))).take 4 := by
    rw [hbuf, List.cons_append]
    rfl
  have hslice : (buf.drop 1).take 20 = P := by
    rw [hdrop]
    exact List.take_left' hPlen
  rw [hslice]
  show Except.ok (String.mk (hexEncodeChars P)) = Except.ok H
  rw [henc]

/-- C4: whenever `gethexaddress` succeeds, its output has exactly 40
characters and every character is a lowercase hexadecimal digit. -/
theorem gethexaddress_output_shape (a : QtumAddress) (s t : String)
    (h : a.gethexaddress s = Except.ok t) :
    t.length = 40 ∧ ∀ c ∈ t.data, c ∈ "0123456789abcdef".data := by
  rw [QtumAddress.gethexaddress] at h
  split_ifs at h with hs
  rcases hdec : base58decode s with _ | bs <;> rw [hdec] at h
  · simp at h
  simp only [sliceGet] at h
  split_ifs at h with hcond
  simp only [Except.ok.injEq] at h
  subst h
  constructor
  · show (hexEncodeChars ((bs.drop 1).take (21 - 1))).length = 40
    rw [hexEncodeChars_length]
    simp only [List.length_take, List.length_drop]
    omega
  · intro c hc
    exact hexEncodeChars_mem _ c hc

/-- C5: `fromhexaddress` returns the invalid-address error exactly when the
input is empty, has length other than 40, or contains a character that is
not a hexadecimal digit; on every other 40-character hex input it returns
`Ok`. -/
theorem fromhexaddress_invalid_iff (a : QtumAddress) (s : String) :
    (a.fromhexaddress s = Except.error "Invalid address" ↔
      s = "" ∨ s.length ≠ 40 ∨ ∃ c ∈ s.data,
        ¬(('0' ≤ c ∧ c ≤ '9') ∨ ('a' ≤ c ∧ c ≤ 'f') ∨ ('A' ≤ c ∧ c ≤ 'F'))) ∧
    ((s.length = 40 ∧ ∀ c ∈ s.data,
        ('0' ≤ c ∧ c ≤ '9') ∨ ('a' ≤ c ∧ c ≤ 'f') ∨ ('A' ≤ c ∧ c ≤ 'F')) →
      ∃ t, a.fromhexaddress s = Except.ok t) := by
  by_cases hlen : s.length = 40
  · have hs : s ≠ "" := by
      intro h
      subst h
      simp at hlen
    rcases hdec : hexDecode s with _ | P
    · have herr : a.fromhexaddress s = Except.error "Invalid address" := by
        rw [QtumAddress.fromhexaddress, if_neg (by push_neg; exact ⟨hs, hlen⟩), hdec]
      have hbad : ∃ c ∈ s.data, hexDigitVal c = none := by
        refine (hexDecodeChars_none_iff s.data ?_).mp hdec
        have h40 : s.data.length = 40 := hlen
        rw [h40]
      obtain ⟨c, hc, hcn⟩ := hbad
      constructor
      · exact iff_of_true herr
          (Or.inr (Or.inr ⟨c, hc, (hexDigitVal_none_iff c).mp hcn⟩))
      · rintro ⟨-, hall⟩
        exact absurd (hall c hc) ((hexDigitVal_none_iff c).mp hcn)
    · have hok := fromhexaddress_ok a s P hlen hdec
      constructor
      · refine iff_of_false (by rw [hok]; simp) ?_
        rintro (h | h | ⟨c, hc, hbad⟩)
        · exact hs h
        · exact h hlen
        · have hnone : hexDigitVal c = none := (hexDigitVal_none_iff c).mpr hbad
          have : hexDecodeChars s.data = none := by
            refine (hexDecodeChars_none_iff s.data ?_).mpr ⟨c, hc, hnone⟩
            have h40 : s.data.length = 40 := hlen
            rw [h40]
          rw [hexDecode, this] at hdec
          simp at hdec
      · intro _
        exact ⟨_, hok⟩
  · have herr : a.fromhexaddress s = Except.error "Invalid address" := by
      rw [QtumAddress.fromhexaddress, if_pos (Or.inr hlen)]
    constructor
    · exact iff_of_true herr (Or.inr (Or.inl hlen))
    · rintro ⟨h40, -⟩
      exact absurd h40 hlen

/-- C6: `gethexaddress` returns the invalid-address error exactly when the
input is empty, contains a character outside the 58-symbol Bitcoin
alphabet, or base-58-decodes to fewer than 21 bytes; any input decoding to
at least 21 bytes is accepted regardless of its prefix or checksum bytes. -/
theorem gethexaddress_invalid_iff (a : QtumAddress) (s : String) :
    (a.gethexaddress s = Except.error "Invalid address" ↔
      s = "" ∨ (∃ c ∈ s.data, b58Index c = none) ∨
        (∃ bs, base58decode s = some bs ∧ bs.length < 21)) ∧
    (∀ bs : List Nat, base58decode s = some bs → 21 ≤ bs.length →
      ∃ t, a.gethexaddress s = Except.ok t) := by
  constructor
  · by_cases hs : s = ""
    · subst hs
      refine iff_of_true ?_ (Or.inl rfl)
      rw [QtumAddress.gethexaddress, if_pos rfl]
    · rcases hdec : base58decode s with _ | bs
      · refine iff_of_true ?_
          (Or.inr (Or.inl ((base58decode_eq_none_iff s).mp hdec)))
        rw [QtumAddress.gethexaddress, if_neg hs, hdec]
      · by_cases hbs : 21 ≤ bs.length
        · refine iff_of_false ?_ ?_
          · rw [gethexaddress_ok a s bs hdec hbs]
            simp
          · rintro (h | ⟨c, hc, hcn⟩ | ⟨bs', hbs', hlt⟩)
            · exact hs h
            · have : base58decode s = none :=
                (base58decode_eq_none_iff s).mpr ⟨c, hc, hcn⟩
              rw [hdec] at this
              simp at this
            · obtain rfl := Option.some.inj hbs'
              omega
        · refine iff_of_true ?_ (Or.inr (Or.inr ⟨bs, rfl, by omega⟩))
          rw [QtumAddress.gethexaddress, if_neg hs, hdec]
          simp only [sliceGet]
          rw [if_neg]
          push_neg
          intro _
          omega
  · intro bs hdec hlen
    exact ⟨_, gethexaddress_ok a s bs hdec hlen⟩

/-- C7: the textual addresses produced by `fromhexaddress` for the same
40-character hex payload under the Mainnet codec and under the Testnet
codec always differ. -/
theorem mainnet_testnet_encodings_differ (H : String) (P : List Nat)
    (T1 T2 : String) (hlen : H.length = 40) (hdec : hexDecode H = some P)
    (h1 : (QtumAddress.new QtumNetwork.Mainnet).fromhexaddress H = Except.ok T1)
    (h2 : (QtumAddress.new QtumNetwork.Testnet).fromhexaddress H = Except.ok T2) :
    T1 ≠ T2 := by
  have hPlt : ∀ x ∈ P, x < 256 := hexDecodeChars_lt H.data P hdec
  have hblt : ∀ pfx : Nat, pfx < 256 →
      ∀ x ∈ (pfx :: P) ++ (sha256 (sha256 (pfx :: P))).take 4, x < 256 := by
    intro pfx hpfx x hx
    rcases List.mem_append.mp hx with hx | hx
    · rcases List.mem_cons.mp hx with rfl | hx
      · exact hpfx
      · exact hPlt x hx
    · exact sha256_lt _ x (List.take_subset 4 _ hx)
  rw [fromhexaddress_ok _ H P hlen hdec] at h1 h2
  have hpm : (QtumAddress.new QtumNetwork.Mainnet).prefix_byte = 0x3a := rfl
  have hpt : (QtumAddress.new QtumNetwork.Testnet).prefix_byte = 0x78 := rfl
  rw [hpm] at h1
  rw [hpt] at h2
  obtain rfl := (Except.ok.inj h1)
  obtain rfl := (Except.ok.inj h2)
  intro hT
  have r1 := base58decode_base58encode _ (hblt 0x3a (by norm_num))
  have r2 := base58decode_base58encode _ (hblt 0x78 (by norm_num))
  rw [hT, r2] at r1
  rw [List.cons_append, List.cons_append, Option.some.injEq,
    List.cons.injEq] at r1
  omega

/-! ## Witnesses instantiating the claims at concrete inputs -/

set_option maxRecDepth 100000 in
/-- Witness for C1 at the all-zero payload under the Mainnet codec. -/
theorem hex_to_textual_to_hex_roundtrip_witness :
    ∃ T, (QtumAddress.new QtumNetwork.Mainnet).fromhexaddress
        "0000000000000000000000000000000000000000" = Except.ok T ∧
      (QtumAddress.new QtumNetwork.Mainnet).gethexaddress T =
        Except.ok "0000000000000000000000000000000000000000" :=
  hex_to_textual_to_hex_roundtrip (QtumAddress.new QtumNetwork.Mainnet)
    "0000000000000000000000000000000000000000"
    (by decide) (by decide) (by decide)

set_option maxRecDepth 100000 in
/-- Witness for C2 at the all-zero payload under the Testnet codec. -/
theorem fromhexaddress_base58check_structure_witness :
    (QtumAddress.new QtumNetwork.Testnet).fromhexaddress
        "0000000000000000000000000000000000000000" =
      Except.ok (base58encode
        (((QtumAddress.new QtumNetwork.Testnet).prefix_byte ::
            List.replicate 20 0) ++
          (sha256 (sha256 ((QtumAddress.new QtumNetwork.Testnet).prefix_byte ::
            List.replicate 20 0))).take 4)) :=
  fromhexaddress_base58check_structure _ _ (List.replicate 20 0)
    (by decide) (by rfl)

/-- Witness for C4 at a 21-byte all-zero decoded input. -/
theorem gethexaddress_output_shape_witness :
    (QtumAddress.new QtumNetwork.Mainnet).gethexaddress
        "111111111111111111111" =
      Except.ok "0000000000000000000000000000000000000000" ∧
    (("0000000000000000000000000000000000000000" : String).length = 40 ∧
      ∀ c ∈ ("0000000000000000000000000000000000000000" : String).data,
        c ∈ "0123456789abcdef".data) :=
  ⟨by rfl,
   gethexaddress_output_shape (QtumAddress.new QtumNetwork.Mainnet)
     "111111111111111111111" "0000000000000000000000000000000000000000"
     (by rfl)⟩

set_option maxRecDepth 100000 in
/-- Witness for C5: a 40-character hex input is accepted. -/
theorem fromhexaddress_invalid_iff_witness :
    ∃ t, (QtumAddress.new QtumNetwork.Testnet).fromhexaddress
        "0000000000000000000000000000000000000000" = Except.ok t :=
  (fromhexaddress_invalid_iff (QtumAddress.new QtumNetwork.Testnet)
      "0000000000000000000000000000000000000000").2
    ⟨by decide, by decide⟩

/-- Witness for C6: an input decoding to 21 bytes is accepted. -/
theorem gethexaddress_invalid_iff_witness :
    ∃ t, (QtumAddress.new QtumNetwork.Testnet).gethexaddress
        "111111111111111111111" = Except.ok t :=
  (gethexaddress_invalid_iff (QtumAddress.new QtumNetwork.Testnet)
      "111111111111111111111").2
    (List.replicate 21 0) (by rfl) (by decide)

set_option maxRecDepth 100000 in
/-- Witness for C7 at the all-zero payload. -/
theorem mainnet_testnet_encodings_differ_witness :
    "QLbz7JHiBTspS962RLKV8GndWFwiJNvEPz" ≠
      "qHZPA2maCec991jPwLyFC3fQXXvCQKGhkU" :=
  mainnet_testnet_encodings_differ
    "0000000000000000000000000000000000000000" (List.replicate 20 0)
    "QLbz7JHiBTspS962RLKV8GndWFwiJNvEPz" "qHZPA2maCec991jPwLyFC3fQXXvCQKGhkU"
    (by decide) (by rfl) (by rfl) (by rfl)

/-- Witness for C8 at the unmapped byte 0. -/
theorem network_prefix_bijection_witness :
    QtumNetwork.fromByte 0 = none ∧
      QtumNetwork.fromByte 0x3a = some QtumNetwork.Mainnet :=
  ⟨network_prefix_bijection.2.2.2.2.2 0 (by decide) (by decide),
   network_prefix_bijection.2.2.1⟩

set_option maxRecDepth 100000 in
/-- Witness for C9 at the all-ones payload under the Mainnet codec. -/
theorem checksum_slice_never_fails_witness :
    ∃ t, (QtumAddress.new QtumNetwork.Mainnet).fromhexaddress
        "ffffffffffffffffffffffffffffffffffffffff" = Except.ok t :=
  (checksum_slice_never_fails (QtumAddress.new QtumNetwork.Mainnet)).2
    "ffffffffffffffffffffffffffffffffffffffff" (List.replicate 20 255)
    (by decide) (by rfl)
